import Mathlib

/-!
Shallow embedding of the kindergarten-flashcards client (src/src/App.jsx):
the Fisher-Yates shuffle engine, the practice and test session controllers,
and the deck-editor save path, with proofs of the specified properties.
JS numbers are modelled as Nat (all session arithmetic is on array indices
and counters, which stay nonnegative), the random source behind
Math.random is modelled as an explicit function giving, for each loop
index i, the value of Math.floor(Math.random() * (i + 1)), and the
asynchronous persistence and cast side effects are ignored because they
never feed back into the session state.
-/

namespace KinderFlashcards

/-- Card record (App.jsx line 16): id, required front, optional back and hint. -/
structure Card where
  id : String
  front : String
  back : Option String := none
  hint : Option String := none
deriving DecidableEq, Repr

/-- Deck record (App.jsx line 17): id, name, ordered cards. -/
structure Deck where
  id : String
  name : String
  cards : List Card
deriving DecidableEq, Repr

/-- Practice statistics (App.jsx line 110): seen and correct counters. -/
structure Stats where
  seen : Nat
  correct : Nat
deriving DecidableEq, Repr

/-- Test score (App.jsx line 115): correct count and fixed total. -/
structure Score where
  correct : Nat
  total : Nat
deriving DecidableEq, Repr

/-- Screen tag (App.jsx line 95): home, mode, practice, test, results, editor. -/
inductive Screen
  | home | mode | practice | test | results | editor
deriving DecidableEq, Repr

/-- App-level state touched by the session controllers (App.jsx lines
95-120).  activeDeck stands for the derived value
decks.find(d => d.id === activeDeckId) of line 122. -/
structure AppState where
  screen : Screen
  activeDeck : Option Deck
  queue : List Nat
  currentIdx : Nat
  showBack : Bool
  stats : Stats
  testQueue : List Nat
  testIdx : Nat
  testScore : Score
deriving DecidableEq, Repr

/-- clamp helper (App.jsx line 22): Math.max(min, Math.min(max, n)).  Its
only call site passes nonnegative numbers, so Nat is faithful. -/
def clamp (n mn mx : Nat) : Nat := Nat.max mn (Nat.min mx n)

/-- Destructuring swap [a[i], a[j]] = [a[j], a[i]] of App.jsx line 47.
When an index is out of range the JS read yields undefined; inside
shuffleArray both indices are always in range, and the wildcard arm keeps
the function total without touching the list. -/
def swapAt {α : Type} (a : List α) (i j : Nat) : List α :=
  match a.get? i, a.get? j with
  | some ai, some aj => (a.set i aj).set j ai
  | _, _ => a

/-- Loop of App.jsx lines 45-48: for (let i = a.length - 1; i > 0; i--)
swap a[i] with a[rand i], where rand i stands for
Math.floor(Math.random() * (i + 1)).  The counter argument is the next
loop index i; the loop body runs only while i > 0. -/
def fisherYates {α : Type} (rand : Nat → Nat) : Nat → List α → List α
  | 0, a => a
  | i + 1, a => fisherYates rand i (swapAt a (i + 1) (rand (i + 1)))

/-- shuffleArray (App.jsx lines 43-50), parameterised by the random
source. -/
def shuffleArray {α : Type} (rand : Nat → Nat) (arr : List α) : List α :=
  fisherYates rand (arr.length - 1) arr

/-- Current practice card (App.jsx line 123):
activeDeck && queue.length ? activeDeck.cards[queue[currentIdx]] : null.
Out-of-range reads become none, as the JS reads become undefined. -/
def currentCard (s : AppState) : Option Card :=
  match s.activeDeck with
  | none => none
  | some d =>
    if s.queue.length = 0 then none
    else (s.queue.get? s.currentIdx).bind fun i => d.cards.get? i

/-- Entry of the practice queue at the current position, the deck index
the current card is looked up at (the queue[currentIdx] part of App.jsx
line 123), defined under the same guard as currentCard. -/
def currentEntry (s : AppState) : Option Nat :=
  match s.activeDeck with
  | none => none
  | some _ =>
    if s.queue.length = 0 then none else s.queue.get? s.currentIdx

/-- Practice-start effect (App.jsx lines 170-190): when the practice
screen is entered with an active deck, shuffle the index range of the
deck into the queue and reset position, reveal state and stats. -/
def startPractice (rand : Nat → Nat) (s : AppState) : AppState :=
  match s.activeDeck with
  | none => s
  | some d =>
    if s.screen = Screen.practice then
      { s with queue := shuffleArray rand (List.range d.cards.length),
               currentIdx := 0, showBack := false,
               stats := { seen := 0, correct := 0 } }
    else s

/-- flip (App.jsx line 192): toggle showBack. -/
def flip (s : AppState) : AppState := { s with showBack := !s.showBack }

/-- shuffleNow (App.jsx lines 194-200). -/
def shuffleNow (rand : Nat → Nat) (s : AppState) : AppState :=
  match s.activeDeck with
  | none => s
  | some d =>
    { s with queue := shuffleArray rand (List.range d.cards.length),
             currentIdx := 0, showBack := false }

/-- nextPractice (App.jsx lines 202-228).  The guard of line 203 returns
unchanged when no deck is active or the queue is empty.  With currentIdx
inside the queue (the session invariant, re-established by every
operation) this mirrors the two splice calls exactly; an out-of-range
currentIdx, unreachable in the app, would make splice remove nothing and
enqueue the JS value undefined, which a queue of deck indices cannot
represent, so the model returns the state unchanged on that arm. -/
def nextPractice (correct : Bool) (s : AppState) : AppState :=
  if s.activeDeck = none ∨ s.queue.length = 0 then s
  else
    match s.queue.get? s.currentIdx with
    | none => s
    | some cur =>
      let q1 := s.queue.eraseIdx s.currentIdx
      let q2 := if correct then q1 ++ [cur]
                else q1.insertIdx (clamp (s.currentIdx + 2) 0 q1.length) cur
      let newIdx := if q2.length ≤ s.currentIdx then 0 else s.currentIdx
      { s with queue := q2, currentIdx := newIdx, showBack := false,
               stats := { seen := s.stats.seen + 1,
                          correct := s.stats.correct + (if correct then 1 else 0) } }

/-- Iterated practice advances: the session trace after a sequence of
Wrong / Got-it answers. -/
def advances (s : AppState) (bs : List Bool) : AppState :=
  bs.foldl (fun t b => nextPractice b t) s

/-- startTest (App.jsx lines 231-250): shuffle the index range of the
active deck, reset position and score, and enter the test screen. -/
def startTest (rand : Nat → Nat) (s : AppState) : AppState :=
  match s.activeDeck with
  | none => s
  | some d =>
    let indices := shuffleArray rand (List.range d.cards.length)
    { s with testQueue := indices, testIdx := 0,
             testScore := { correct := 0, total := indices.length },
             showBack := false, screen := Screen.test }

/-- Current test card (App.jsx line 252). -/
def currentTestCard (s : AppState) : Option Card :=
  match s.activeDeck with
  | none => none
  | some d =>
    if s.testQueue.length = 0 then none
    else (s.testQueue.get? s.testIdx).bind fun i => d.cards.get? i

/-- answerTest (App.jsx lines 254-277): the score update of line 255
happens on every call; when testIdx + 1 >= testQueue.length the screen
becomes results and testIdx is left alone, otherwise testIdx advances and
showBack resets. -/
def answerTest (correct : Bool) (s : AppState) : AppState :=
  let score2 : Score :=
    { s.testScore with correct := s.testScore.correct + (if correct then 1 else 0) }
  if s.testQueue.length ≤ s.testIdx + 1 then
    { s with testScore := score2, screen := Screen.results }
  else
    { s with testScore := score2, testIdx := s.testIdx + 1, showBack := false }

/-- Model of the JS String.prototype.trim used by saveDraft: drop the
leading and trailing whitespace characters of the string. -/
def jsTrim (s : String) : String :=
  String.mk (((s.data.dropWhile Char.isWhitespace).reverse.dropWhile
                Char.isWhitespace).reverse)

/-- Card cleaning step of saveDraft (App.jsx lines 381-386): replace an
empty id by a fresh one, trim the front, and trim back and hint, turning
empty results into undefined. -/
def cleanCard (fresh : String) (c : Card) : Card :=
  { id := if c.id = "" then fresh else c.id,
    front := jsTrim c.front,
    back := if jsTrim (c.back.getD "") = "" then none
            else some (jsTrim (c.back.getD "")),
    hint := if jsTrim (c.hint.getD "") = "" then none
            else some (jsTrim (c.hint.getD "")) }

/-- Map of saveDraft over the draft cards, each call of uid() modelled by
one value of the fresh-id supply. -/
def cleanCards : (Nat → String) → List Card → List Card
  | _, [] => []
  | fresh, c :: cs => cleanCard (fresh 0) c :: cleanCards (fun i => fresh (i + 1)) cs

/-- Deck cleaning of saveDraft (App.jsx lines 376-387): trimmed name with
the placeholder for an empty result, and the cleaned cards filtered to
those with non-empty front. -/
def cleanDeck (fresh : Nat → String) (d : Deck) : Deck :=
  { id := d.id,
    name := if jsTrim d.name = "" then "Untitled Deck" else jsTrim d.name,
    cards := (cleanCards fresh d.cards).filter fun c => decide (0 < c.front.length) }

/-- Draft deck of the round-trip scenario: one card "cat" and one blank
trailing card. -/
def catDraft : Deck :=
  { id := "x", name := "My Deck",
    cards := [{ id := "c1", front := "cat" }, { id := "c2", front := "" }] }

/-- Fresh-id supply used in concrete scenarios. -/
def freshEx : Nat → String := fun _ => "fresh"

/-- Random source used in concrete scenarios (always picks index 0). -/
def rand0 : Nat → Nat := fun _ => 0

/-- Deck with two cards, used in concrete scenarios. -/
def deckAB : Deck :=
  { id := "ab", name := "AB",
    cards := [{ id := "a", front := "A" }, { id := "b", front := "B" }] }

/-- Deck with three cards A, B, C, used in the practice scenario. -/
def deckABC : Deck :=
  { id := "abc", name := "ABC",
    cards := [{ id := "a", front := "A" }, { id := "b", front := "B" },
              { id := "c", front := "C" }] }

/-- Deck with no cards, used in the empty-test scenario. -/
def emptyDeck : Deck := { id := "e", name := "Empty", cards := [] }

/-- Initial app state (App.jsx lines 96-115): home screen, no active
deck, empty queues, zero stats and score. -/
def baseState : AppState :=
  { screen := Screen.home, activeDeck := none, queue := [], currentIdx := 0,
    showBack := false, stats := { seen := 0, correct := 0 },
    testQueue := [], testIdx := 0, testScore := { correct := 0, total := 0 } }

/-- Practice state of the spec scenario: deck [A,B,C] with queue [B,A,C]
as deck indices, position 0. -/
def practiceABC : AppState :=
  { baseState with screen := Screen.practice, activeDeck := some deckABC,
                   queue := [1, 0, 2] }

/-- Practice state with the two-card deck and the identity queue. -/
def practiceAB : AppState :=
  { baseState with screen := Screen.practice, activeDeck := some deckAB,
                   queue := [0, 1] }

/-- Mode screen with the empty deck active. -/
def modeEmpty : AppState :=
  { baseState with screen := Screen.mode, activeDeck := some emptyDeck }

/-- Test in progress on a one-card queue, one answer away from the end. -/
def testOneCard : AppState :=
  { baseState with screen := Screen.test, activeDeck := some deckAB,
                   testQueue := [0], testIdx := 0,
                   testScore := { correct := 0, total := 1 } }

/-! Permutation lemmas for the shuffle engine. -/

theorem set_cons_perm {α : Type} (y z : α) :
    ∀ (t : List α) (m : Nat), t.get? m = some y →
      List.Perm (y :: t.set m z) (z :: t) := by
  intro t
  induction t with
  | nil => intro m h; simp at h
  | cons a t ih =>
    intro m h
    cases m with
    | zero =>
      have hay : a = y := by simpa using h
      subst hay
      show List.Perm (a :: z :: t) (z :: a :: t)
      exact List.Perm.swap z a t
    | succ m =>
      have h2 := ih m (by simpa using h)
      show List.Perm (y :: a :: t.set m z) (z :: a :: t)
      exact (List.Perm.swap a y _).trans ((List.Perm.cons a h2).trans (List.Perm.swap z a t))

theorem set_set_perm {α : Type} :
    ∀ (a : List α) (i j : Nat) (ai aj : α),
      a.get? i = some ai → a.get? j = some aj →
      List.Perm ((a.set i aj).set j ai) a := by
  intro a
  induction a with
  | nil => intro i j ai aj hi hj; simp at hi
  | cons x t ih =>
    intro i j ai aj hi hj
    cases i with
    | zero =>
      have hax : x = ai := by simpa using hi
      cases j with
      | zero =>
        have haj : x = aj := by simpa using hj
        subst hax
        show List.Perm (x :: t) (x :: t)
        exact List.Perm.refl _
      | succ j =>
        have hj2 : t.get? j = some aj := by simpa using hj
        subst hax
        show List.Perm (aj :: t.set j x) (x :: t)
        exact set_cons_perm aj x t j hj2
    | succ i =>
      have hi2 : t.get? i = some ai := by simpa using hi
      cases j with
      | zero =>
        have haj : x = aj := by simpa using hj
        subst haj
        show List.Perm (ai :: t.set i x) (x :: t)
        exact set_cons_perm ai x t i hi2
      | succ j =>
        have hj2 : t.get? j = some aj := by simpa using hj
        show List.Perm (x :: (t.set i aj).set j ai) (x :: t)
        exact List.Perm.cons x (ih i j ai aj hi2 hj2)

theorem swapAt_perm {α : Type} (a : List α) (i j : Nat) :
    List.Perm (swapAt a i j) a := by
  unfold swapAt
  cases hi : a.get? i with
  | none => exact List.Perm.refl a
  | some ai =>
    cases hj : a.get? j with
    | none => exact List.Perm.refl a
    | some aj => exact set_set_perm a i j ai aj hi hj

theorem fisherYates_perm {α : Type} (rand : Nat → Nat) :
    ∀ (k : Nat) (a : List α), List.Perm (fisherYates rand k a) a := by
  intro k
  induction k with
  | zero => intro a; exact List.Perm.refl a
  | succ k ih =>
    intro a
    exact (ih _).trans (swapAt_perm a (k + 1) (rand (k + 1)))

theorem shuffleArray_perm {α : Type} (rand : Nat → Nat) (arr : List α) :
    List.Perm (shuffleArray rand arr) arr :=
  fisherYates_perm rand (arr.length - 1) arr

/-- C4: for every random source and every n, shuffleArray on the index
range 0..n-1 (the arr built at App.jsx lines 172 and 233) returns a
permutation of 0..n-1 of length n, and n = 0 yields the empty sequence. -/
theorem shuffleArray_range_perm (rand : Nat → Nat) (n : Nat) :
    List.Perm (shuffleArray rand (List.range n)) (List.range n) ∧
    (shuffleArray rand (List.range n)).length = n ∧
    shuffleArray rand (List.range 0) = [] := by
  refine ⟨shuffleArray_perm rand (List.range n), ?_, rfl⟩
  rw [(shuffleArray_perm rand (List.range n)).length_eq, List.length_range]

/-! List helpers for the queue resequencing proofs. -/

theorem lt_length_of_get? {α : Type} :
    ∀ (l : List α) (i : Nat) (x : α), l.get? i = some x → i < l.length := by
  intro l
  induction l with
  | nil => intro i x h; simp at h
  | cons a l ih =>
    intro i x h
    cases i with
    | zero => exact Nat.succ_pos _
    | succ i => exact Nat.succ_lt_succ (ih i x (by simpa using h))

theorem get?_of_lt {α : Type} :
    ∀ (l : List α) (i : Nat), i < l.length → ∃ x, l.get? i = some x := by
  intro l
  induction l with
  | nil => intro i h; simp at h
  | cons a l ih =>
    intro i h
    cases i with
    | zero => exact ⟨a, rfl⟩
    | succ i =>
      obtain ⟨x, hx⟩ := ih i (Nat.lt_of_succ_lt_succ h)
      exact ⟨x, by simpa using hx⟩

theorem cons_eraseIdx_perm {α : Type} (x : α) :
    ∀ (l : List α) (i : Nat), l.get? i = some x →
      List.Perm (x :: l.eraseIdx i) l := by
  intro l
  induction l with
  | nil => intro i h; simp at h
  | cons a l ih =>
    intro i h
    cases i with
    | zero =>
      have hax : a = x := by simpa using h
      subst hax
      exact List.Perm.refl _
    | succ i =>
      have h2 := ih i (by simpa using h)
      show List.Perm (x :: a :: l.eraseIdx i) (a :: l)
      exact (List.Perm.swap a x _).trans (List.Perm.cons a h2)

theorem insertIdx_cons_perm {α : Type} (x : α) :
    ∀ (l : List α) (i : Nat), i ≤ l.length →
      List.Perm (l.insertIdx i x) (x :: l) := by
  intro l
  induction l with
  | nil =>
    intro i h
    have h0 : i = 0 := Nat.le_zero.mp h
    subst h0
    exact List.Perm.refl _
  | cons a l ih =>
    intro i h
    cases i with
    | zero => exact List.Perm.refl _
    | succ i =>
      rw [List.insertIdx_succ_cons]
      exact (List.Perm.cons a (ih i (Nat.le_of_succ_le_succ h))).trans (List.Perm.swap x a l)

theorem mem_insertIdx_of_mem {α : Type} (x a : α) :
    ∀ (l : List α) (p : Nat), a ∈ l → a ∈ l.insertIdx p x := by
  intro l
  induction l with
  | nil => intro p h; cases h
  | cons c l ih =>
    intro p h
    cases p with
    | zero => rw [List.insertIdx_zero]; exact List.mem_cons_of_mem x h
    | succ p =>
      rw [List.insertIdx_succ_cons]
      rcases List.mem_cons.mp h with h | h
      · rw [h]; exact List.mem_cons_self _ _
      · exact List.mem_cons_of_mem c (ih p h)

theorem eq_or_mem_of_mem_insertIdx {α : Type} {x a : α} :
    ∀ {l : List α} {p : Nat}, a ∈ l.insertIdx p x → a = x ∨ a ∈ l := by
  intro l
  induction l with
  | nil =>
    intro p h
    cases p with
    | zero =>
      rw [List.insertIdx_zero] at h
      exact Or.inl (by simpa using h)
    | succ p =>
      rw [List.insertIdx_succ_nil] at h
      cases h
  | cons c l ih =>
    intro p h
    cases p with
    | zero =>
      rw [List.insertIdx_zero] at h
      exact List.mem_cons.mp h
    | succ p =>
      rw [List.insertIdx_succ_cons] at h
      rcases List.mem_cons.mp h with h | h
      · exact Or.inr (by rw [h]; exact List.mem_cons_self _ _)
      · rcases ih h with h | h
        · exact Or.inl h
        · exact Or.inr (List.mem_cons_of_mem c h)

theorem insertIdx_append_left {α : Type} (x : α) :
    ∀ (u w : List α) (p : Nat), p ≤ u.length →
      (u ++ w).insertIdx p x = u.insertIdx p x ++ w := by
  intro u
  induction u with
  | nil =>
    intro w p hp
    have h0 : p = 0 := Nat.le_zero.mp hp
    subst h0
    rw [List.insertIdx_zero, List.insertIdx_zero]
    rfl
  | cons c u ih =>
    intro w p hp
    cases p with
    | zero => rw [List.insertIdx_zero, List.insertIdx_zero]; rfl
    | succ p =>
      show (c :: (u ++ w)).insertIdx (p + 1) x = (c :: u).insertIdx (p + 1) x ++ w
      rw [List.insertIdx_succ_cons, List.insertIdx_succ_cons,
          ih w p (Nat.le_of_succ_le_succ hp)]
      rfl

theorem insertIdx_append_right {α : Type} (x : α) :
    ∀ (u w : List α) (q : Nat),
      (u ++ w).insertIdx (u.length + q) x = u ++ w.insertIdx q x := by
  intro u
  induction u with
  | nil => intro w q; simp
  | cons c u ih =>
    intro w q
    show (c :: (u ++ w)).insertIdx ((c :: u).length + q) x = c :: (u ++ w.insertIdx q x)
    have hlen : (c :: u).length + q = (u.length + q) + 1 := by
      simp [Nat.succ_add]
    rw [hlen, List.insertIdx_succ_cons, ih]

/-! Characterisation of nextPractice on a valid state. -/

theorem practiceQueue_perm (b : Bool) (q1 : List Nat) (cur : Nat) (i : Nat) :
    List.Perm (if b then q1 ++ [cur]
               else q1.insertIdx (clamp (i + 2) 0 q1.length) cur)
              (cur :: q1) := by
  cases b with
  | true => exact @List.perm_append_comm Nat q1 [cur]
  | false =>
    have hc : clamp (i + 2) 0 q1.length = Nat.min q1.length (i + 2) := by
      simp [clamp, Nat.zero_max]
    show List.Perm (q1.insertIdx (clamp (i + 2) 0 q1.length) cur) (cur :: q1)
    rw [hc]
    exact insertIdx_cons_perm cur q1 _ (Nat.min_le_left _ _)

theorem nextPractice_eq (b : Bool) (s : AppState) (d : Deck) (cur : Nat)
    (hd : s.activeDeck = some d) (hcur : s.queue.get? s.currentIdx = some cur) :
    nextPractice b s =
      { s with
        queue := if b then s.queue.eraseIdx s.currentIdx ++ [cur]
                 else (s.queue.eraseIdx s.currentIdx).insertIdx
                        (clamp (s.currentIdx + 2) 0 (s.queue.eraseIdx s.currentIdx).length)
                        cur,
        showBack := false,
        stats := { seen := s.stats.seen + 1,
                   correct := s.stats.correct + (if b then 1 else 0) } } := by
  have hlt : s.currentIdx < s.queue.length := lt_length_of_get? _ _ _ hcur
  have hperm :
      List.Perm (if b then s.queue.eraseIdx s.currentIdx ++ [cur]
                 else (s.queue.eraseIdx s.currentIdx).insertIdx
                        (clamp (s.currentIdx + 2) 0 (s.queue.eraseIdx s.currentIdx).length)
                        cur)
                s.queue :=
    (practiceQueue_perm b _ cur s.currentIdx).trans (cons_eraseIdx_perm cur s.queue s.currentIdx hcur)
  have hguard : ¬(s.activeDeck = none ∨ s.queue.length = 0) := by
    rw [hd]
    push_neg
    exact ⟨by simp, by omega⟩
  have hidx : ¬((if b then s.queue.eraseIdx s.currentIdx ++ [cur]
                 else (s.queue.eraseIdx s.currentIdx).insertIdx
                        (clamp (s.currentIdx + 2) 0 (s.queue.eraseIdx s.currentIdx).length)
                        cur).length ≤ s.currentIdx) := by
    rw [hperm.length_eq]
    omega
  unfold nextPractice
  rw [if_neg hguard, hcur]
  show ({ s with
          queue := if b then s.queue.eraseIdx s.currentIdx ++ [cur]
                   else (s.queue.eraseIdx s.currentIdx).insertIdx
                          (clamp (s.currentIdx + 2) 0 (s.queue.eraseIdx s.currentIdx).length)
                          cur,
          currentIdx := if (if b then s.queue.eraseIdx s.currentIdx ++ [cur]
                            else (s.queue.eraseIdx s.currentIdx).insertIdx
                                   (clamp (s.currentIdx + 2) 0
                                     (s.queue.eraseIdx s.currentIdx).length)
                                   cur).length ≤ s.currentIdx
                        then 0 else s.currentIdx,
          showBack := false,
          stats := { seen := s.stats.seen + 1,
                     correct := s.stats.correct + (if b then 1 else 0) } } : AppState) = _
  rw [if_neg hidx]

/-- C10: a practice advance from a state whose position is inside the queue
leaves the position unchanged: the queue length is conserved before the
wrap comparison of App.jsx line 211, so the wrap-to-front branch never
fires under this precondition. -/
theorem nextPractice_preserves_position (b : Bool) (s : AppState) (d : Deck)
    (hd : s.activeDeck = some d) (hlt : s.currentIdx < s.queue.length) :
    (nextPractice b s).currentIdx = s.currentIdx := by
  obtain ⟨cur, hcur⟩ := get?_of_lt s.queue s.currentIdx hlt
  rw [nextPractice_eq b s d cur hd hcur]

/-- Witness for C10 at a concrete two-card practice state. -/
theorem nextPractice_preserves_position_witness :
    ({ baseState with activeDeck := some deckAB, queue := [1, 0] } : AppState).currentIdx
      < ({ baseState with activeDeck := some deckAB, queue := [1, 0] } : AppState).queue.length ∧
    (nextPractice true { baseState with activeDeck := some deckAB, queue := [1, 0] }).currentIdx
      = ({ baseState with activeDeck := some deckAB, queue := [1, 0] } : AppState).currentIdx :=
  ⟨by decide,
   nextPractice_preserves_position true
     { baseState with activeDeck := some deckAB, queue := [1, 0] } deckAB rfl (by decide)⟩

/-- C5: a practice advance from a state whose position is inside the
(non-empty) queue conserves the queue length, and the queue stays a
permutation of what it was; in particular it stays a permutation of
0..n-1 whenever it was one. -/
theorem nextPractice_preserves_length_and_perm (b : Bool) (s : AppState) (d : Deck)
    (hd : s.activeDeck = some d) (hlt : s.currentIdx < s.queue.length) :
    (nextPractice b s).queue.length = s.queue.length ∧
    List.Perm (nextPractice b s).queue s.queue ∧
    ∀ n : Nat, List.Perm s.queue (List.range n) →
      List.Perm (nextPractice b s).queue (List.range n) := by
  obtain ⟨cur, hcur⟩ := get?_of_lt s.queue s.currentIdx hlt
  have hp : List.Perm (nextPractice b s).queue s.queue := by
    rw [nextPractice_eq b s d cur hd hcur]
    exact (practiceQueue_perm b _ cur s.currentIdx).trans
      (cons_eraseIdx_perm cur s.queue s.currentIdx hcur)
  exact ⟨hp.length_eq, hp, fun n hn => hp.trans hn⟩

/-- Witness for C5 at a concrete three-card practice state. -/
theorem nextPractice_preserves_length_and_perm_witness :
    ({ baseState with activeDeck := some deckABC, queue := [1, 0, 2] } : AppState).currentIdx
      < ({ baseState with activeDeck := some deckABC, queue := [1, 0, 2] } : AppState).queue.length ∧
    (nextPractice false { baseState with activeDeck := some deckABC, queue := [1, 0, 2] }).queue.length
      = ({ baseState with activeDeck := some deckABC, queue := [1, 0, 2] } : AppState).queue.length :=
  ⟨by decide,
   (nextPractice_preserves_length_and_perm false
     { baseState with activeDeck := some deckABC, queue := [1, 0, 2] } deckABC rfl (by decide)).1⟩

/-- C6: a practice advance with correct = false removes the current card
and reinserts it at index min(position + 2, length of the one-shorter
queue), increments stats.seen and leaves stats.correct unchanged. -/
theorem nextPractice_wrong_reinsert (s : AppState) (d : Deck) (cur : Nat)
    (hd : s.activeDeck = some d) (hcur : s.queue.get? s.currentIdx = some cur) :
    (nextPractice false s).queue =
      (s.queue.eraseIdx s.currentIdx).insertIdx
        (Nat.min (s.currentIdx + 2) (s.queue.eraseIdx s.currentIdx).length) cur ∧
    (nextPractice false s).stats.seen = s.stats.seen + 1 ∧
    (nextPractice false s).stats.correct = s.stats.correct := by
  rw [nextPractice_eq false s d cur hd hcur]
  refine ⟨?_, rfl, rfl⟩
  show (s.queue.eraseIdx s.currentIdx).insertIdx
        (clamp (s.currentIdx + 2) 0 (s.queue.eraseIdx s.currentIdx).length) cur = _
  simp [clamp, Nat.zero_max, Nat.min_comm]

/-- Witness for C6: the spec scenario with deck [A,B,C], queue [B,A,C]
(indices [1,0,2]) at position 0; advance(false) gives [A,C,B] (indices
[0,2,1]) and stats seen 1, correct 0. -/
theorem nextPractice_wrong_reinsert_witness :
    practiceABC.queue.get? practiceABC.currentIdx = some 1 ∧
    (nextPractice false practiceABC).queue = [0, 2, 1] ∧
    (nextPractice false practiceABC).stats.seen = 1 ∧
    (nextPractice false practiceABC).stats.correct = 0 := by
  have h := nextPractice_wrong_reinsert practiceABC deckABC 1 rfl rfl
  exact ⟨rfl, h.1.trans (by decide), h.2.1, h.2.2⟩

theorem nextPractice_cons (b : Bool) (s : AppState) (d : Deck) (h : Nat) (r : List Nat)
    (hd : s.activeDeck = some d) (hq : s.queue = h :: r) (hi : s.currentIdx = 0) :
    nextPractice b s =
      { s with queue := if b then r ++ [h] else r.insertIdx (Nat.min r.length 2) h,
               currentIdx := 0, showBack := false,
               stats := { seen := s.stats.seen + 1,
                          correct := s.stats.correct + (if b then 1 else 0) } } := by
  have hcur : s.queue.get? s.currentIdx = some h := by rw [hq, hi]; rfl
  rw [nextPractice_eq b s d h hd hcur]
  simp [hq, hi, clamp, Nat.zero_max]

theorem currentEntry_cons (s : AppState) (d : Deck) (h : Nat) (r : List Nat)
    (hd : s.activeDeck = some d) (hq : s.queue = h :: r) (hi : s.currentIdx = 0) :
    currentEntry s = some h := by
  unfold currentEntry
  rw [hd, hq, hi]
  simp

theorem advances_nil (s : AppState) : advances s [] = s := rfl

theorem advances_cons (s : AppState) (b : Bool) (bs : List Bool) :
    advances s (b :: bs) = advances (nextPractice b s) bs := rfl

/-- Core invariant behind the requeue-at-the-end property: from a valid
practice state whose queue splits as u ++ curx :: v with curx occurring
only once, curx can only reach the current position after every element
of u has been the current entry at some earlier point of the trace. -/
theorem practice_trace_core (curx : Nat) (d : Deck) :
    ∀ (bs : List Bool) (t : AppState) (u v : List Nat),
      t.activeDeck = some d → t.currentIdx = 0 →
      t.queue = u ++ curx :: v → curx ∉ u → curx ∉ v →
      currentEntry (advances t bs) = some curx →
      ∀ x ∈ u, ∃ k, currentEntry (advances t (bs.take k)) = some x := by
  intro bs
  induction bs with
  | nil =>
    intro t u v hd hi hq hcu _hcv hcur x hx
    exfalso
    cases u with
    | nil => cases hx
    | cons h u2 =>
      have hq2 : t.queue = h :: (u2 ++ curx :: v) := by rw [hq]; rfl
      have hce : currentEntry t = some h := currentEntry_cons t d h _ hd hq2 hi
      rw [advances_nil] at hcur
      have hhc : h = curx := by
        have := hce.symm.trans hcur
        injection this
      exact hcu (by rw [← hhc]; exact List.mem_cons_self _ _)
  | cons b bs ih =>
    intro t u v hd hi hq hcu hcv hcur x hx
    cases u with
    | nil => cases hx
    | cons h u2 =>
      have hq2 : t.queue = h :: (u2 ++ curx :: v) := by rw [hq]; rfl
      have hcuh : curx ≠ h := fun e => hcu (by rw [e]; exact List.mem_cons_self _ _)
      have hcu2 : curx ∉ u2 := fun m => hcu (List.mem_cons_of_mem _ m)
      have hstep := nextPractice_cons b t d h (u2 ++ curx :: v) hd hq2 hi
      have hd2 : (nextPractice b t).activeDeck = some d := by rw [hstep]; exact hd
      have hi2 : (nextPractice b t).currentIdx = 0 := by rw [hstep]
      rcases List.mem_cons.mp hx with hxh | hxu2
      · exact ⟨0, by rw [hxh]; exact currentEntry_cons t d h _ hd hq2 hi⟩
      cases b with
      | true =>
        have hq3 : (nextPractice true t).queue = u2 ++ curx :: (v ++ [h]) := by
          rw [hstep]
          simp
        have hcv2 : curx ∉ v ++ [h] := by
          intro m
          rcases List.mem_append.mp m with m | m
          · exact hcv m
          · exact hcuh (List.mem_singleton.mp m)
        obtain ⟨k, hk⟩ :=
          ih (nextPractice true t) u2 (v ++ [h]) hd2 hi2 hq3 hcu2 hcv2 hcur x hxu2
        exact ⟨k + 1, hk⟩
      | false =>
        have hq3 : (nextPractice false t).queue
            = (u2 ++ curx :: v).insertIdx (Nat.min (u2 ++ curx :: v).length 2) h := by
          rw [hstep]
          rfl
        by_cases hcase : Nat.min (u2 ++ curx :: v).length 2 ≤ u2.length
        · have hq4 : (nextPractice false t).queue
              = (u2.insertIdx (Nat.min (u2 ++ curx :: v).length 2) h) ++ curx :: v :=
            hq3.trans (insertIdx_append_left h u2 (curx :: v) _ hcase)
          have hcu3 : curx ∉ u2.insertIdx (Nat.min (u2 ++ curx :: v).length 2) h := by
            intro m
            rcases eq_or_mem_of_mem_insertIdx m with e | m2
            · exact hcuh e
            · exact hcu2 m2
          obtain ⟨k, hk⟩ :=
            ih (nextPractice false t) _ v hd2 hi2 hq4 hcu3 hcv hcur x
              (mem_insertIdx_of_mem h x u2 _ hxu2)
          exact ⟨k + 1, hk⟩
        · have hlt2 : u2.length < Nat.min (u2 ++ curx :: v).length 2 :=
            Nat.lt_of_not_le hcase
          obtain ⟨j, hj⟩ : ∃ j, Nat.min (u2 ++ curx :: v).length 2 = u2.length + (j + 1) :=
            ⟨Nat.min (u2 ++ curx :: v).length 2 - u2.length - 1, by omega⟩
          have hq4 : (nextPractice false t).queue = u2 ++ curx :: v.insertIdx j h := by
            rw [hq3, hj, insertIdx_append_right, List.insertIdx_succ_cons]
          have hcv2 : curx ∉ v.insertIdx j h := by
            intro m
            rcases eq_or_mem_of_mem_insertIdx m with e | m2
            · exact hcuh e
            · exact hcv m2
          obtain ⟨k, hk⟩ :=
            ih (nextPractice false t) u2 _ hd2 hi2 hq4 hcu2 hcv2 hcur x hxu2
          exact ⟨k + 1, hk⟩

/-- C2: a practice advance with correct = true on a duplicate-free
non-empty queue at position 0 (the only reachable position) removes the
current card and appends it to the end of the queue, and that card can
be the current entry again, after any further sequence of advances, only
once every other card of the original queue has been the current entry
at some earlier point of the trace. -/
theorem nextPractice_correct_requeues_last (s : AppState) (d : Deck) (cur : Nat)
    (rest : List Nat) (hd : s.activeDeck = some d) (hi : s.currentIdx = 0)
    (hq : s.queue = cur :: rest) (hnd : s.queue.Nodup) :
    (nextPractice true s).queue = rest ++ [cur] ∧
    ∀ bs : List Bool,
      currentEntry (advances (nextPractice true s) bs) = some cur →
      ∀ x ∈ s.queue, x ≠ cur →
        ∃ k, currentEntry (advances (nextPractice true s) (bs.take k)) = some x := by
  have hstep := nextPractice_cons true s d cur rest hd hq hi
  have hq1 : (nextPractice true s).queue = rest ++ [cur] := by rw [hstep]; rfl
  refine ⟨hq1, ?_⟩
  intro bs hcur x hxq hxne
  have hndr : cur ∉ rest := by
    rw [hq] at hnd
    exact (List.nodup_cons.mp hnd).1
  have hd2 : (nextPractice true s).activeDeck = some d := by rw [hstep]; exact hd
  have hi2 : (nextPractice true s).currentIdx = 0 := by rw [hstep]
  have hxrest : x ∈ rest := by
    rw [hq] at hxq
    rcases List.mem_cons.mp hxq with e | m
    · exact absurd e hxne
    · exact m
  exact practice_trace_core cur d bs (nextPractice true s) rest [] hd2 hi2 hq1 hndr
    (by simp) hcur x hxrest

/-- Witness for C2 at the concrete two-card practice state with queue
[0, 1]: the hypotheses hold and the advanced queue is [1, 0]. -/
theorem nextPractice_correct_requeues_last_witness :
    practiceAB.queue = 0 :: [1] ∧ practiceAB.queue.Nodup ∧
    (nextPractice true practiceAB).queue = [1] ++ [0] :=
  ⟨rfl, by decide,
   (nextPractice_correct_requeues_last practiceAB deckAB 0 [1] rfl rfl rfl (by decide)).1⟩

/-- C9: flip is an involution on the app state, and a single flip leaves
the queue, the position and the stats unchanged. -/
theorem flip_involutive_preserves_session (s : AppState) :
    flip (flip s) = s ∧ (flip s).queue = s.queue ∧
    (flip s).currentIdx = s.currentIdx ∧ (flip s).stats = s.stats := by
  refine ⟨?_, rfl, rfl, rfl⟩
  simp [flip]

/-! Test controller. -/

/-- C1 counterexample: starting a test on the empty deck yields score
0/0 but does not put the session in the Results state — the screen
becomes test. -/
theorem startTest_empty_deck_not_results :
    (startTest rand0 modeEmpty).screen = Screen.test ∧
    Screen.test ≠ Screen.results ∧
    (startTest rand0 modeEmpty).testScore = { correct := 0, total := 0 } := by
  refine ⟨rfl, by decide, rfl⟩

/-- C1 (amended): starting a test on a deck with zero cards yields score
{correct: 0, total: 0} and an empty test queue with no current card
displayed, but the session is on the Test screen, not the terminal
Results state; the first answer call then moves it to Results. -/
theorem startTest_empty_deck_behavior (rand : Nat → Nat) (s : AppState) (d : Deck)
    (hd : s.activeDeck = some d) (hc : d.cards = []) :
    (startTest rand s).testScore = { correct := 0, total := 0 } ∧
    (startTest rand s).testQueue = [] ∧
    (startTest rand s).screen = Screen.test ∧
    currentTestCard (startTest rand s) = none ∧
    ∀ c : Bool, (answerTest c (startTest rand s)).screen = Screen.results := by
  have hs : startTest rand s =
      { s with activeDeck := some d, testQueue := [], testIdx := 0,
               testScore := { correct := 0, total := 0 },
               showBack := false, screen := Screen.test } := by
    unfold startTest
    rw [hd]
    show ({ s with
              activeDeck := some d
              testQueue := shuffleArray rand (List.range d.cards.length)
              testIdx := 0
              testScore := { correct := 0,
                             total := (shuffleArray rand (List.range d.cards.length)).length }
              showBack := false
              screen := Screen.test } : AppState) = _
    rw [hc]
    rfl
  refine ⟨by rw [hs], by rw [hs], by rw [hs], ?_, fun c => by rw [hs]; rfl⟩
  rw [hs]
  simp [currentTestCard, hd]

/-- Witness for the amended C1 at the concrete empty-deck state. -/
theorem startTest_empty_deck_behavior_witness :
    modeEmpty.activeDeck = some emptyDeck ∧ emptyDeck.cards = [] ∧
    (startTest rand0 modeEmpty).testQueue = [] ∧
    (answerTest true (startTest rand0 modeEmpty)).screen = Screen.results :=
  ⟨rfl, rfl,
   (startTest_empty_deck_behavior rand0 modeEmpty emptyDeck rfl rfl).2.1,
   (startTest_empty_deck_behavior rand0 modeEmpty emptyDeck rfl rfl).2.2.2.2 true⟩

/-- C3 counterexample: in the initial state, before any start, with no
active deck and an empty test queue, answerTest is not a no-op: it moves
the screen to Results and increments score.correct. -/
theorem answerTest_unstarted_not_noop :
    baseState.activeDeck = none ∧ baseState.testQueue = [] ∧
    answerTest true baseState ≠ baseState ∧
    (answerTest true baseState).testScore.correct = 1 ∧
    (answerTest true baseState).screen = Screen.results := by
  refine ⟨rfl, rfl, ?_, rfl, rfl⟩
  decide

/-- C3 (amended): the practice advance is guarded — with no active deck
or an empty queue it is a no-op and the current card is none — but the
test answer has no guard: called with an empty test queue it leaves the
position unchanged, still adds to score.correct when the answer is
correct, and moves the screen to Results; the current test card is none
when no deck is active or the test queue is empty. -/
theorem session_precondition_behavior (s : AppState) (b c : Bool) :
    (s.activeDeck = none ∨ s.queue.length = 0 →
       nextPractice b s = s ∧ currentCard s = none ∧ currentEntry s = none) ∧
    (s.testQueue.length = 0 →
       (answerTest c s).testIdx = s.testIdx ∧
       (answerTest c s).screen = Screen.results ∧
       (answerTest c s).testScore.correct
         = s.testScore.correct + (if c then 1 else 0)) ∧
    (s.activeDeck = none ∨ s.testQueue.length = 0 → currentTestCard s = none) := by
  refine ⟨?_, ?_, ?_⟩
  · intro hg
    refine ⟨?_, ?_, ?_⟩
    · unfold nextPractice
      rw [if_pos hg]
    · rcases hg with h | h
      · simp [currentCard, h]
      · cases hd : s.activeDeck with
        | none => simp [currentCard, hd]
        | some d => simp [currentCard, hd, h]
    · rcases hg with h | h
      · simp [currentEntry, h]
      · cases hd : s.activeDeck with
        | none => simp [currentEntry, hd]
        | some d => simp [currentEntry, hd, h]
  · intro h0
    have hle : s.testQueue.length ≤ s.testIdx + 1 := by
      rw [h0]
      exact Nat.zero_le _
    simp only [answerTest]
    rw [if_pos hle]
    exact ⟨rfl, rfl, rfl⟩
  · intro hg
    rcases hg with h | h
    · simp [currentTestCard, h]
    · cases hd : s.activeDeck with
      | none => simp [currentTestCard, hd]
      | some d => simp [currentTestCard, hd, h]

/-- Witness for the amended C3 at the initial state. -/
theorem session_precondition_behavior_witness :
    nextPractice true baseState = baseState ∧ currentCard baseState = none ∧
    (answerTest true baseState).screen = Screen.results := by
  have h := session_precondition_behavior baseState true true
  exact ⟨(h.1 (Or.inl rfl)).1, (h.1 (Or.inl rfl)).2.1, (h.2.1 rfl).2.1⟩

/-- C7 counterexample: at the one-card test state the position is still
below n, yet the answer call does not increment it — the session moves
to Results with the position unchanged, so the position never reaches n. -/
theorem answerTest_last_does_not_increment :
    testOneCard.testIdx + 1 ≤ testOneCard.testQueue.length ∧
    (answerTest true testOneCard).testIdx ≠ testOneCard.testIdx + 1 ∧
    (answerTest true testOneCard).testIdx = testOneCard.testIdx ∧
    (answerTest true testOneCard).screen = Screen.results := by
  exact ⟨by decide, by decide, rfl, rfl⟩

/-- C7 (amended): every answer call adds 1 to score.correct exactly when
the answer was correct and keeps the total; while position + 1 < n it
increments the position by exactly 1 and stays on the same screen; when
position + 1 >= n (the last card, and any later call) it leaves the
position unchanged and sets the terminal Results screen, whose UI
renders no answer buttons; and a queue built by startTest is
duplicate-free, so no card index repeats within the single pass. -/
theorem answerTest_step_behavior (s : AppState) (c : Bool) :
    (answerTest c s).testScore.correct = s.testScore.correct + (if c then 1 else 0) ∧
    (answerTest c s).testScore.total = s.testScore.total ∧
    (s.testIdx + 1 < s.testQueue.length →
       (answerTest c s).testIdx = s.testIdx + 1 ∧ (answerTest c s).screen = s.screen) ∧
    (s.testQueue.length ≤ s.testIdx + 1 →
       (answerTest c s).testIdx = s.testIdx ∧ (answerTest c s).screen = Screen.results) ∧
    ∀ (rand : Nat → Nat) (d : Deck), s.activeDeck = some d →
      ((startTest rand s).testQueue).Nodup := by
  refine ⟨?_, ?_, ?_, ?_, ?_⟩
  · simp only [answerTest]
    split <;> rfl
  · simp only [answerTest]
    split <;> rfl
  · intro hlt
    simp only [answerTest]
    rw [if_neg (by omega)]
    exact ⟨rfl, rfl⟩
  · intro hge
    simp only [answerTest]
    rw [if_pos hge]
    exact ⟨rfl, rfl⟩
  · intro rand d hd
    have hq : (startTest rand s).testQueue
        = shuffleArray rand (List.range d.cards.length) := by
      unfold startTest
      rw [hd]
    rw [hq]
    exact ((shuffleArray_perm rand _).nodup_iff).mpr (List.nodup_range _)

/-- Witness for the amended C7 at the one-card test state. -/
theorem answerTest_step_behavior_witness :
    (answerTest true testOneCard).testScore.correct = 1 ∧
    (answerTest true testOneCard).testIdx = 0 ∧
    (answerTest true testOneCard).screen = Screen.results ∧
    ((startTest rand0 testOneCard).testQueue).Nodup := by
  have h := answerTest_step_behavior testOneCard true
  exact ⟨h.1, (h.2.2.2.1 (by decide)).1, (h.2.2.2.1 (by decide)).2,
         h.2.2.2.2 rand0 deckAB rfl⟩

/-! Deck editor save path. -/

theorem cleanCards_fronts :
    ∀ (cs : List Card) (fresh : Nat → String),
      ((cleanCards fresh cs).filter fun c => decide (0 < c.front.length)).map Card.front
        = ((cs.map fun c => jsTrim c.front).filter fun f => decide (0 < f.length)) := by
  intro cs
  induction cs with
  | nil => intro fresh; rfl
  | cons c cs ih =>
    intro fresh
    show ((cleanCard (fresh 0) c :: cleanCards (fun i => fresh (i + 1)) cs).filter
            fun x => decide (0 < x.front.length)).map Card.front = _
    rw [List.map_cons]
    by_cases hc : 0 < (jsTrim c.front).length
    · rw [List.filter_cons_of_pos (by simpa using hc),
          List.filter_cons_of_pos (by simpa using hc), List.map_cons, ih]
      rfl
    · rw [List.filter_cons_of_neg (by simpa using hc),
          List.filter_cons_of_neg (by simpa using hc), ih]

/-- C8: the saveDraft cleaning step produces a non-empty deck name (the
trimmed draft name, or the placeholder when that is empty), the saved
card fronts are exactly the trimmed fronts of the draft cards that are
non-empty after trimming, in order, every saved card has a non-empty
front, and the cat scenario saves to exactly the one card "cat". -/
theorem cleanDeck_saved_shape (fresh : Nat → String) (d : Deck) :
    (cleanDeck fresh d).name ≠ "" ∧
    ((cleanDeck fresh d).cards.map Card.front
      = ((d.cards.map fun c => jsTrim c.front).filter fun f => decide (0 < f.length))) ∧
    (∀ c ∈ (cleanDeck fresh d).cards, 0 < c.front.length) ∧
    (cleanDeck freshEx catDraft).cards.map Card.front = ["cat"] := by
  refine ⟨?_, ?_, ?_, ?_⟩
  · show (if jsTrim d.name = "" then "Untitled Deck" else jsTrim d.name) ≠ ""
    by_cases h : jsTrim d.name = ""
    · rw [if_pos h]
      decide
    · rw [if_neg h]
      exact h
  · exact cleanCards_fronts d.cards fresh
  · intro c hcmem
    have hp := List.of_mem_filter hcmem
    simpa using hp
  · decide

end KinderFlashcards
